import Mathlib

/-!
# Verification of the crop-disease treatment service

Shallow embedding of the core logic of the GhAIHack crop-disease
prediction repository:

* `services/treatment_service.py` — disease-name normalization, fuzzy
  resolution, suggestion scoring, and treatment recommendation;
* `services/cache.py` — the two-tier cache manager;
* `data/disease_database.py`, `data/disease_database_extended.py` — the
  static catalog (only the fields the verified logic inspects).

Python strings are modelled as `List Char` (wrapped in `String` where
convenient); Python's ASCII-relevant behaviour of `str.lower`, `str.strip`,
`str.replace` and the `in` substring test is embedded directly.  Floats
(treatment effectiveness and cost) are modelled as rationals: the service
only compares them, never performs float arithmetic.
-/

/-- The set of characters stripped by Python's bare `str.strip()`
(ASCII whitespace). -/
def isPySpace (c : Char) : Bool :=
  c = ' ' || c = '\t' || c = '\n' || c = '\r' || c = '\x0b' || c = '\x0c'

/-- Python `s.strip(p)`: remove leading and trailing characters
satisfying `p`. -/
def pyStrip (p : Char → Bool) (l : List Char) : List Char :=
  ((l.dropWhile p).reverse.dropWhile p).reverse

/-- Python `s.replace(a, b)` for single characters `a`, `b`. -/
def replaceChar (a b : Char) (l : List Char) : List Char :=
  l.map (fun c => if c = a then b else c)

/-- Python `s.replace(a, "")` for a single character `a`. -/
def removeChar (a : Char) (l : List Char) : List Char :=
  l.filter (fun c => c ≠ a)

/-- Python `"__" in s`: does the string contain two adjacent underscores? -/
def hasDouble : List Char → Bool
  | [] => false
  | [_] => false
  | a :: b :: rest => (a = '_' && b = '_') || hasDouble (b :: rest)

/-- One pass of Python `s.replace("__", "_")`: left-to-right,
non-overlapping. -/
def replaceDouble : List Char → List Char
  | [] => []
  | [c] => [c]
  | a :: b :: rest =>
    if a = '_' ∧ b = '_' then '_' :: replaceDouble rest
    else a :: replaceDouble (b :: rest)

/-- The `while "__" in normalized: normalized = normalized.replace("__", "_")`
loop of `_normalize_disease_name`, with explicit fuel.  `collapseUnderscores`
below supplies enough fuel to reach the loop's fixpoint. -/
def collapseLoop : Nat → List Char → List Char
  | 0, l => l
  | n + 1, l => if hasDouble l then collapseLoop n (replaceDouble l) else l

/-- The underscore-collapsing while-loop of `_normalize_disease_name`;
each iteration strictly shrinks the string, so `l.length` rounds of fuel
always reach the fixpoint. -/
def collapseUnderscores (l : List Char) : List Char :=
  collapseLoop l.length l

/-- `TreatmentService._normalize_disease_name`, on `List Char`:
`disease_name.lower().strip()`, then `replace(" ", "_")`,
`replace("-", "_")`, `replace(".", "")`, then the underscore-collapsing
loop, then `strip("_")`. -/
def normalizeList (l : List Char) : List Char :=
  pyStrip (fun c => c = '_')
    (collapseUnderscores
      (removeChar '.'
        (replaceChar '-' '_'
          (replaceChar ' ' '_'
            (pyStrip isPySpace (l.map Char.toLower))))))

/-- `TreatmentService._normalize_disease_name` on `String`. -/
def normalize_disease_name (s : String) : String :=
  ⟨normalizeList s.data⟩

example : normalize_disease_name "  Leaf--Blight. " = "leaf_blight" := by decide

example : normalize_disease_name "a.b" = "ab" := by decide

/-- Full collapse of every run of consecutive underscores into a single
underscore — the fixpoint the normalization while-loop computes (used as
the spec-side description of that loop). -/
def collapseRunsSpec : List Char → List Char
  | [] => []
  | [c] => [c]
  | a :: b :: rest =>
    if a = '_' ∧ b = '_' then collapseRunsSpec (b :: rest)
    else a :: collapseRunsSpec (b :: rest)

theorem replaceDouble_headq (l : List Char) : (replaceDouble l).head? = l.head? := by
  induction l using replaceDouble.induct with
  | case1 => rfl
  | case2 c => rfl
  | case3 a b rest h ih =>
    obtain ⟨rfl, rfl⟩ := h
    simp [replaceDouble]
  | case4 a b rest h ih =>
    simp [replaceDouble, h]

theorem collapseRunsSpec_cons (a : Char) (x : List Char) :
    collapseRunsSpec (a :: x) =
      if a = '_' ∧ x.head? = some '_' then collapseRunsSpec x
      else a :: collapseRunsSpec x := by
  cases x with
  | nil => simp [collapseRunsSpec]
  | cons c m =>
    by_cases h : a = '_' ∧ c = '_'
    · obtain ⟨rfl, rfl⟩ := h
      simp [collapseRunsSpec]
    · rw [collapseRunsSpec, if_neg h, if_neg]
      simp only [List.head?_cons, Option.some.injEq]
      exact fun hc => h ⟨hc.1, hc.2⟩

theorem collapseRunsSpec_replaceDouble (l : List Char) :
    collapseRunsSpec (replaceDouble l) = collapseRunsSpec l := by
  induction l using replaceDouble.induct with
  | case1 => rfl
  | case2 c => rfl
  | case3 a b rest h ih =>
    obtain ⟨rfl, rfl⟩ := h
    rw [replaceDouble, if_pos ⟨rfl, rfl⟩]
    rw [collapseRunsSpec_cons, collapseRunsSpec_cons, replaceDouble_headq, ih]
    simp [collapseRunsSpec_cons]
  | case4 a b rest h ih =>
    rw [replaceDouble, if_neg h]
    rw [collapseRunsSpec_cons, replaceDouble_headq]
    rw [show collapseRunsSpec (a :: b :: rest) = a :: collapseRunsSpec (b :: rest) from
      by rw [collapseRunsSpec, if_neg h]]
    rw [if_neg, ih]
    simp only [List.head?_cons, Option.some.injEq]
    exact fun hc => h ⟨hc.1, hc.2⟩

theorem collapseRunsSpec_of_not_hasDouble (l : List Char) (h : hasDouble l = false) :
    collapseRunsSpec l = l := by
  induction l using collapseRunsSpec.induct with
  | case1 => rfl
  | case2 c => rfl
  | case3 a b rest hab ih =>
    exfalso
    rw [hasDouble] at h
    simp only [Bool.or_eq_false_iff, Bool.and_eq_false_iff] at h
    obtain ⟨rfl, rfl⟩ := hab
    rcases h.1 with h1 | h1 <;> simp at h1
  | case4 a b rest hab ih =>
    rw [collapseRunsSpec, if_neg hab, ih]
    rw [hasDouble] at h
    simp only [Bool.or_eq_false_iff] at h
    exact h.2

theorem replaceDouble_length_le (l : List Char) :
    (replaceDouble l).length ≤ l.length := by
  induction l using replaceDouble.induct with
  | case1 => simp [replaceDouble]
  | case2 c => simp [replaceDouble]
  | case3 a b rest hab ih =>
    obtain ⟨rfl, rfl⟩ := hab
    rw [replaceDouble, if_pos ⟨rfl, rfl⟩]
    simp only [List.length_cons]
    omega
  | case4 a b rest hab ih =>
    rw [replaceDouble, if_neg hab]
    simp only [List.length_cons] at ih ⊢
    omega

theorem replaceDouble_length_lt (l : List Char) (h : hasDouble l = true) :
    (replaceDouble l).length < l.length := by
  induction l using replaceDouble.induct with
  | case1 => simp [hasDouble] at h
  | case2 c => simp [hasDouble] at h
  | case3 a b rest hab ih =>
    obtain ⟨rfl, rfl⟩ := hab
    rw [replaceDouble, if_pos ⟨rfl, rfl⟩]
    have := replaceDouble_length_le rest
    simp only [List.length_cons]
    omega
  | case4 a b rest hab ih =>
    rw [replaceDouble, if_neg hab]
    rw [hasDouble] at h
    simp only [Bool.or_eq_true, Bool.and_eq_true, decide_eq_true_eq] at h
    rcases h with ⟨h1, h2⟩ | h2
    · exact absurd ⟨h1, h2⟩ hab
    · have := ih h2
      simp only [List.length_cons] at this ⊢
      omega

theorem collapseLoop_eq_spec : ∀ (n : Nat) (l : List Char), l.length ≤ n →
    collapseLoop n l = collapseRunsSpec l := by
  intro n
  induction n with
  | zero =>
    intro l hl
    rw [Nat.le_zero, List.length_eq_zero] at hl
    subst hl
    rfl
  | succ n ih =>
    intro l hl
    rw [collapseLoop]
    by_cases h : hasDouble l = true
    · rw [if_pos h, ih _ (by have := replaceDouble_length_lt l h; omega),
        collapseRunsSpec_replaceDouble]
    · rw [if_neg h, collapseRunsSpec_of_not_hasDouble l (by simpa using h)]

/-- The while-loop in `_normalize_disease_name` computes exactly the full
run collapse. -/
theorem collapseUnderscores_eq_spec (l : List Char) :
    collapseUnderscores l = collapseRunsSpec l :=
  collapseLoop_eq_spec l.length l le_rfl

theorem char_toNat_ofNat {n : Nat} (h : n.isValidChar) : (Char.ofNat n).toNat = n := by
  rw [Char.ofNat, dif_pos h]
  rfl

theorem toLower_toLower (c : Char) : (Char.toLower c).toLower = c.toLower := by
  by_cases h : c.toNat ≥ 65 ∧ c.toNat ≤ 90
  · have h1 : Char.toLower c = Char.ofNat (c.toNat + 32) := by
      rw [Char.toLower, if_pos h]
    have hv : Nat.isValidChar (c.toNat + 32) := Or.inl (by omega)
    have ht : (Char.ofNat (c.toNat + 32)).toNat = c.toNat + 32 := char_toNat_ofNat hv
    rw [h1, Char.toLower, ht, if_neg (by omega)]
  · have h1 : Char.toLower c = c := by
      rw [Char.toLower, if_neg h]
    rw [h1, h1]

theorem isPySpace_toNat_le {c : Char} (h : isPySpace c = true) : c.toNat ≤ 32 := by
  rw [isPySpace] at h
  simp only [Bool.or_eq_true, decide_eq_true_eq] at h
  rcases h with ((((rfl | rfl) | rfl) | rfl) | rfl) | rfl <;> decide

theorem isPySpace_toLower {c : Char} (h : isPySpace (Char.toLower c) = true) :
    Char.toLower c = c := by
  by_cases hc : c.toNat ≥ 65 ∧ c.toNat ≤ 90
  · exfalso
    have h1 : Char.toLower c = Char.ofNat (c.toNat + 32) := by
      rw [Char.toLower, if_pos hc]
    have ht : (Char.ofNat (c.toNat + 32)).toNat = c.toNat + 32 :=
      char_toNat_ofNat (Or.inl (by omega))
    rw [h1] at h
    have h2 := isPySpace_toNat_le h
    rw [ht] at h2
    omega
  · rw [Char.toLower, if_neg hc]

theorem dropWhile_head_false (p : Char → Bool) (l : List Char) :
    ∀ c, (l.dropWhile p).head? = some c → p c = false := by
  intro c hc
  have h := List.head?_dropWhile_not p l
  rw [hc] at h
  exact h

theorem dropWhile_eq_self_of_head (p : Char → Bool) (l : List Char)
    (h : ∀ c, l.head? = some c → p c = false) : l.dropWhile p = l := by
  cases l with
  | nil => rfl
  | cons a t =>
    rw [List.dropWhile_cons, if_neg]
    simp [h a rfl]

theorem pyStrip_subset (p : Char → Bool) (l : List Char) : pyStrip p l ⊆ l := by
  intro c hc
  rw [pyStrip, List.mem_reverse] at hc
  have h1 := (List.dropWhile_sublist (l := (l.dropWhile p).reverse) p).subset hc
  rw [List.mem_reverse] at h1
  exact (List.dropWhile_sublist p).subset h1

theorem pyStrip_infixOf (p : Char → Bool) (l : List Char) : pyStrip p l <:+: l := by
  have h1 : l.dropWhile p <:+ l := List.dropWhile_suffix p
  have h2 : (l.dropWhile p).reverse.dropWhile p <:+ (l.dropWhile p).reverse :=
    List.dropWhile_suffix p
  have h3 : ((l.dropWhile p).reverse.dropWhile p).reverse <+: l.dropWhile p := by
    simpa using List.reverse_prefix.mpr h2
  exact (h3.isInfix).trans h1.isInfix

theorem pyStrip_eq_self (p : Char → Bool) (l : List Char)
    (h : ∀ c ∈ l, p c = false) : pyStrip p l = l := by
  have h1 : l.dropWhile p = l :=
    dropWhile_eq_self_of_head p l (fun c hc => by
      obtain ⟨ys, rfl⟩ := List.head?_eq_some_iff.mp hc
      exact h c (List.mem_cons_self c ys))
  have h2 : l.reverse.dropWhile p = l.reverse :=
    dropWhile_eq_self_of_head p l.reverse (fun c hc => by
      obtain ⟨ys, hys⟩ := List.head?_eq_some_iff.mp hc
      have : c ∈ l := by
        rw [← List.mem_reverse, hys]
        exact List.mem_cons_self c ys
      exact h c this)
  rw [pyStrip, h1, h2, List.reverse_reverse]

theorem pyStrip_idem (p : Char → Bool) (l : List Char) :
    pyStrip p (pyStrip p l) = pyStrip p l := by
  have hpre : ((l.dropWhile p).reverse.dropWhile p).reverse <+: l.dropWhile p := by
    simpa using List.reverse_prefix.mpr (List.dropWhile_suffix (l := (l.dropWhile p).reverse) p)
  show pyStrip p (((l.dropWhile p).reverse.dropWhile p).reverse) = _
  have h1 : (((l.dropWhile p).reverse.dropWhile p).reverse).dropWhile p =
      ((l.dropWhile p).reverse.dropWhile p).reverse := by
    apply dropWhile_eq_self_of_head
    intro c hc
    obtain ⟨ys, hys⟩ := List.head?_eq_some_iff.mp hc
    obtain ⟨w, hw⟩ := hpre
    apply dropWhile_head_false p l c
    rw [← hw, hys]
    simp
  have h2 : ((l.dropWhile p).reverse.dropWhile p).dropWhile p =
      (l.dropWhile p).reverse.dropWhile p := by
    apply dropWhile_eq_self_of_head
    intro c hc
    exact dropWhile_head_false p (l.dropWhile p).reverse c hc
  rw [pyStrip, h1, List.reverse_reverse, h2, pyStrip]

theorem mem_replaceChar {a b c : Char} {l : List Char} (h : c ∈ replaceChar a b l) :
    c = b ∨ (c ∈ l ∧ c ≠ a) := by
  rw [replaceChar] at h
  obtain ⟨d, hd, hdc⟩ := List.mem_map.mp h
  by_cases hda : d = a
  · subst hda
    rw [if_pos rfl] at hdc
    exact Or.inl hdc.symm
  · rw [if_neg hda] at hdc
    subst hdc
    exact Or.inr ⟨hd, hda⟩

theorem not_mem_replaceChar {a b : Char} (hab : a ≠ b) (l : List Char) :
    a ∉ replaceChar a b l := by
  intro h
  rcases mem_replaceChar h with h1 | ⟨_, h2⟩
  · exact hab h1
  · exact h2 rfl

theorem replaceChar_eq_self {a b : Char} {l : List Char} (h : a ∉ l) :
    replaceChar a b l = l := by
  rw [replaceChar]
  have hc : ∀ c ∈ l, (if c = a then b else c) = c := by
    intro c hcl
    rw [if_neg]
    intro h'
    subst h'
    exact h hcl
  rw [List.map_congr_left hc]
  simp

theorem mem_removeChar {a c : Char} {l : List Char} (h : c ∈ removeChar a l) :
    c ∈ l ∧ c ≠ a := by
  rw [removeChar] at h
  have h2 := List.mem_filter.mp h
  refine ⟨h2.1, ?_⟩
  have h3 := h2.2
  simp only [ne_eq, decide_not, Bool.not_eq_false', decide_eq_true_eq] at h3
  simpa using h3

theorem removeChar_eq_self {a : Char} {l : List Char} (h : a ∉ l) :
    removeChar a l = l := by
  rw [removeChar, List.filter_eq_self]
  intro c hcl
  by_cases hca : c = a
  · subst hca
    exact absurd hcl h
  · simp [hca]

theorem hasDouble_ne_nil {m : List Char} (h : hasDouble m = true) : m ≠ [] := by
  intro hm
  subst hm
  simp [hasDouble] at h

theorem hasDouble_append_right (m v : List Char) (h : hasDouble m = true) :
    hasDouble (m ++ v) = true := by
  induction m using hasDouble.induct with
  | case1 => simp [hasDouble] at h
  | case2 c => simp [hasDouble] at h
  | case3 a b rest ih =>
    rw [hasDouble] at h
    rw [List.cons_append, List.cons_append, hasDouble, ← List.cons_append]
    rcases (Bool.or_eq_true _ _).mp h with h1 | h2
    · simp [h1]
    · have h3 := ih h2
      simp only [List.cons_append] at h3 ⊢
      simp [h3]

theorem hasDouble_append_left (u m : List Char) (h : hasDouble m = true) :
    hasDouble (u ++ m) = true := by
  induction u with
  | nil => simpa
  | cons x u ih =>
    rw [List.cons_append]
    cases hum : u ++ m with
    | nil => exact absurd (List.append_eq_nil.mp hum).2 (hasDouble_ne_nil h)
    | cons y r =>
      rw [hasDouble]
      have h2 : hasDouble (y :: r) = true := by
        rw [← hum]
        exact ih
      simp [h2]

theorem hasDouble_of_infix {m l : List Char} (hinf : m <:+: l)
    (h : hasDouble m = true) : hasDouble l = true := by
  obtain ⟨u, v, huv⟩ := hinf
  rw [← huv]
  exact hasDouble_append_right _ _ (hasDouble_append_left u m h)

theorem collapseRunsSpec_headq (l : List Char) :
    (collapseRunsSpec l).head? = l.head? := by
  induction l using collapseRunsSpec.induct with
  | case1 => rfl
  | case2 c => rfl
  | case3 a b rest hab ih =>
    obtain ⟨rfl, rfl⟩ := hab
    rw [collapseRunsSpec, if_pos ⟨rfl, rfl⟩]
    simp [ih]
  | case4 a b rest hab ih =>
    rw [collapseRunsSpec, if_neg hab]
    simp

theorem collapseRunsSpec_not_hasDouble (l : List Char) :
    hasDouble (collapseRunsSpec l) = false := by
  induction l using collapseRunsSpec.induct with
  | case1 => rfl
  | case2 c => rfl
  | case3 a b rest hab ih =>
    rw [collapseRunsSpec, if_pos hab]
    exact ih
  | case4 a b rest hab ih =>
    rw [collapseRunsSpec, if_neg hab]
    have hh := collapseRunsSpec_headq (b :: rest)
    cases hc : collapseRunsSpec (b :: rest) with
    | nil => simp [hasDouble]
    | cons y r =>
      rw [hc] at hh ih
      simp only [List.head?_cons, Option.some.injEq] at hh
      subst hh
      rw [hasDouble]
      simp only [Bool.or_eq_false_iff]
      constructor
      · rcases Decidable.not_and_iff_or_not.mp hab with h1 | h1 <;> simp [h1]
      · exact ih

theorem collapseRunsSpec_subset (l : List Char) : collapseRunsSpec l ⊆ l := by
  induction l using collapseRunsSpec.induct with
  | case1 => exact fun c hc => hc
  | case2 c => exact fun d hd => hd
  | case3 a b rest hab ih =>
    rw [collapseRunsSpec, if_pos hab]
    exact fun c hc => List.mem_cons_of_mem a (ih hc)
  | case4 a b rest hab ih =>
    rw [collapseRunsSpec, if_neg hab]
    intro c hc
    rcases List.mem_cons.mp hc with rfl | hc2
    · exact List.mem_cons_self _ _
    · exact List.mem_cons_of_mem a (ih hc2)

theorem collapseUnderscores_subset (l : List Char) : collapseUnderscores l ⊆ l := by
  rw [collapseUnderscores_eq_spec]
  exact collapseRunsSpec_subset l

theorem normalizeList_mem_cases {l : List Char} {c : Char} (hc : c ∈ normalizeList l) :
    c = '_' ∨ ∃ d ∈ l, c = Char.toLower d := by
  rw [normalizeList] at hc
  have h1 := pyStrip_subset _ _ hc
  have h2 := collapseUnderscores_subset _ h1
  have h3 := (mem_removeChar h2).1
  rcases mem_replaceChar h3 with rfl | ⟨h4, _⟩
  · exact Or.inl rfl
  rcases mem_replaceChar h4 with rfl | ⟨h5, _⟩
  · exact Or.inl rfl
  have h6 := pyStrip_subset _ _ h5
  obtain ⟨d, hd, rfl⟩ := List.mem_map.mp h6
  exact Or.inr ⟨d, hd, rfl⟩

theorem normalizeList_toLower_fix {l : List Char} {c : Char} (hc : c ∈ normalizeList l) :
    Char.toLower c = c := by
  rcases normalizeList_mem_cases hc with rfl | ⟨d, _, rfl⟩
  · decide
  · exact toLower_toLower d

theorem normalizeList_no_ws {l : List Char} (H : ∀ c ∈ l, isPySpace c = true → c = ' ')
    {c : Char} (hc : c ∈ normalizeList l) : isPySpace c = false := by
  rw [normalizeList] at hc
  have h1 := pyStrip_subset _ _ hc
  have h2 := collapseUnderscores_subset _ h1
  have h3 := (mem_removeChar h2).1
  rcases mem_replaceChar h3 with rfl | ⟨h4, _⟩
  · decide
  rcases mem_replaceChar h4 with rfl | ⟨h5, hne⟩
  · decide
  have h6 := pyStrip_subset _ _ h5
  obtain ⟨d, hd, rfl⟩ := List.mem_map.mp h6
  by_contra hws
  rw [Bool.not_eq_false] at hws
  have hd2 : Char.toLower d = d := isPySpace_toLower hws
  rw [hd2] at hws hne
  exact hne (H d hd hws)

theorem normalizeList_no_hyphen (l : List Char) : '-' ∉ normalizeList l := by
  intro hc
  rw [normalizeList] at hc
  have h1 := pyStrip_subset _ _ hc
  have h2 := collapseUnderscores_subset _ h1
  have h3 := (mem_removeChar h2).1
  exact not_mem_replaceChar (by decide) _ h3

theorem normalizeList_no_period (l : List Char) : '.' ∉ normalizeList l := by
  intro hc
  rw [normalizeList] at hc
  have h1 := pyStrip_subset _ _ hc
  have h2 := collapseUnderscores_subset _ h1
  exact (mem_removeChar h2).2 rfl

theorem normalizeList_not_hasDouble (l : List Char) :
    hasDouble (normalizeList l) = false := by
  rw [normalizeList, collapseUnderscores_eq_spec]
  by_contra h
  rw [Bool.not_eq_false] at h
  have h2 := hasDouble_of_infix (pyStrip_infixOf _ _) h
  rw [collapseRunsSpec_not_hasDouble] at h2
  simp at h2

theorem normalizeList_strip_fix (l : List Char) :
    pyStrip (fun c => c = '_') (normalizeList l) = normalizeList l := by
  rw [normalizeList]
  exact pyStrip_idem _ _

theorem normalizeList_idem (l : List Char)
    (H : ∀ c ∈ l, isPySpace c = true → c = ' ') :
    normalizeList (normalizeList l) = normalizeList l := by
  have F1 : (normalizeList l).map Char.toLower = normalizeList l := by
    have hfix : ∀ c ∈ normalizeList l, Char.toLower c = c :=
      fun c hc => normalizeList_toLower_fix hc
    rw [List.map_congr_left hfix]
    simp
  have F2 : pyStrip isPySpace (normalizeList l) = normalizeList l :=
    pyStrip_eq_self _ _ (fun c hc => normalizeList_no_ws H hc)
  have F3 : replaceChar ' ' '_' (normalizeList l) = normalizeList l := by
    apply replaceChar_eq_self
    intro hsp
    have h2 := normalizeList_no_ws H hsp
    simp [isPySpace] at h2
  have F4 : replaceChar '-' '_' (normalizeList l) = normalizeList l :=
    replaceChar_eq_self (normalizeList_no_hyphen l)
  have F5 : removeChar '.' (normalizeList l) = normalizeList l :=
    removeChar_eq_self (normalizeList_no_period l)
  have F6 : collapseUnderscores (normalizeList l) = normalizeList l := by
    rw [collapseUnderscores_eq_spec]
    exact collapseRunsSpec_of_not_hasDouble _ (normalizeList_not_hasDouble l)
  conv_lhs => rw [normalizeList]
  rw [F1, F2, F3, F4, F5, F6, normalizeList_strip_fix]

/-- The C5 claim's reading of normalization, built from the spec sentence:
lowercase, trim, replace spaces, hyphens AND periods with underscore,
collapse runs of underscores, strip boundary underscores. -/
def normalizeClaimC5 (l : List Char) : List Char :=
  pyStrip (fun c => c = '_')
    (collapseRunsSpec
      (replaceChar '.' '_'
        (replaceChar '-' '_'
          (replaceChar ' ' '_'
            (pyStrip isPySpace (l.map Char.toLower))))))

/-- Amended spec-side normalization: spaces and hyphens are replaced with
underscore, periods are REMOVED, then runs of underscores collapse and
boundary underscores are stripped. -/
def normalizeSpecAmended (l : List Char) : List Char :=
  pyStrip (fun c => c = '_')
    (collapseRunsSpec
      (removeChar '.'
        (replaceChar '-' '_'
          (replaceChar ' ' '_'
            (pyStrip isPySpace (l.map Char.toLower))))))

/-- C5 counterexample: on "a.b" the implementation deletes the period,
yielding "ab", while the claimed pipeline (period → underscore)
yields "a_b". -/
theorem c5_counterexample :
    normalizeList "a.b".data ≠ normalizeClaimC5 "a.b".data ∧
    normalize_disease_name "a.b" = "ab" ∧
    normalizeClaimC5 "a.b".data = "a_b".data := by
  refine ⟨by decide, by decide, by decide⟩

/-- C5 (amended): `_normalize_disease_name` lowercases, trims surrounding
whitespace, replaces every space and hyphen with an underscore, removes
every period, collapses every run of consecutive underscores into one,
and strips leading and trailing underscores. -/
theorem c5_normalization_amended (s : String) :
    normalize_disease_name s = ⟨normalizeSpecAmended s.data⟩ := by
  rw [normalize_disease_name, normalizeList, normalizeSpecAmended,
    collapseUnderscores_eq_spec]

/-- C6 counterexample: normalization is not idempotent on "a<TAB>."
— the first pass deletes the period and leaves a trailing tab
(`strip()` ran before the deletion), and only the second pass strips
that tab. -/
theorem c6_counterexample :
    normalize_disease_name (normalize_disease_name "a\t.") ≠
      normalize_disease_name "a\t." ∧
    normalize_disease_name "a\t." = "a\t" ∧
    normalize_disease_name (normalize_disease_name "a\t.") = "a" := by
  refine ⟨by decide, by decide, by decide⟩

/-- C6 (amended): `_normalize_disease_name` is idempotent on every input
whose whitespace characters are all plain spaces; inputs containing other
whitespace (e.g. tabs) adjacent to removed periods can need a second pass. -/
theorem c6_normalize_idempotent (s : String)
    (H : ∀ c ∈ s.data, isPySpace c = true → c = ' ') :
    normalize_disease_name (normalize_disease_name s) = normalize_disease_name s := by
  simp only [normalize_disease_name]
  exact congrArg String.mk (normalizeList_idem s.data H)

/-- Witness for C6 (amended) at the concrete input " Leaf Spot. ". -/
theorem c6_normalize_idempotent_witness :
    normalize_disease_name (normalize_disease_name " Leaf  Spot. ") =
      normalize_disease_name " Leaf  Spot. " :=
  c6_normalize_idempotent " Leaf  Spot. " (by decide)

/-! ## Data model (`models/request_models.py`, fields the core logic reads) -/

/-- `CropType` enum. -/
inductive CropType
  | cashew
  | cassava
  | maize
  | tomato
deriving DecidableEq, Repr

/-- `TreatmentType` enum. -/
inductive TreatmentType
  | chemical
  | organic
  | biological
  | cultural
deriving DecidableEq, Repr

/-- `SeverityLevel` enum. -/
inductive SeverityLevel
  | low
  | moderate
  | high
  | severe
deriving DecidableEq, Repr

/-- `Treatment` model; only the fields the recommendation logic inspects
(name, type, effectiveness, cost) are embedded — the descriptive fields
(dosage, frequency, precautions, ...) are opaque to every verified claim.
`ttype` embeds the Python field `type`. -/
structure Treatment where
  name : String
  ttype : TreatmentType
  effectiveness : ℚ
  cost_estimate_ghs : Option ℚ
deriving DecidableEq, Repr

/-- `DiseaseInfo` model; only the fields the resolver, suggestion and
recommendation logic inspect are embedded. -/
structure DiseaseInfo where
  name : String
  crop_type : CropType
  treatments : List Treatment
deriving DecidableEq, Repr

/-- A Python dict of disease records, modelled as an association list in
insertion order (Python 3.7+ dicts preserve insertion order and this
order is what `.items()` / `.values()` iterate). -/
abbrev Catalog := List (String × DiseaseInfo)

/-- Python `dict.get(key)`: first binding of the key (keys are unique in
an actual dict, making first-match the dict lookup). -/
def dbGet (db : Catalog) (k : String) : Option DiseaseInfo :=
  (db.find? (fun p => p.1 = k)).map (fun p => p.2)

/-! ## Resolver (`TreatmentService._find_disease_fuzzy`) -/

/-- Does the first list lead the second, element by element? -/
def listLeads : List Char → List Char → Bool
  | [], _ => true
  | _ :: _, [] => false
  | a :: as, b :: bs => a = b && listLeads as bs

/-- Python's substring test `needle in hay`. -/
def strIn (needle hay : String) : Bool :=
  hay.data.tails.any (fun t => listLeads needle.data t)

/-- Python `s.startswith(pre)`. -/
def startsWithStr (pre s : String) : Bool :=
  listLeads pre.data s.data

/-- The fixed crop iteration order of `_find_disease_fuzzy`. -/
def cropNames : List String := ["cashew", "cassava", "maize", "tomato"]

/-- Strip the first matching `"{crop}_"` lead from a key (the
`for crop in [...]: if clean_db_key.startswith(f"{crop}_"): ...; break`
loop of `_find_disease_fuzzy`). -/
def cleanDbKey (k : String) : String :=
  match cropNames.find? (fun crop => startsWithStr (crop ++ "_") k) with
  | some crop => ⟨k.data.drop (crop ++ "_").data.length⟩
  | none => k

/-- The substring test used by both fuzzy stages: equality, or substring
containment in either direction. -/
def substrEitherTest (a b : String) : Bool :=
  (a == b) || strIn a b || strIn b a

/-- `TreatmentService._find_disease_fuzzy` (lines 66–108): exact key
lookup, then crop-qualified lookup, then substring matching against the
crop-stripped normalized keys, then substring matching against the
records' `name` fields, in that order, first match winning. -/
def find_disease_fuzzy (db : Catalog) (disease_name : String) : Option DiseaseInfo :=
  let n := normalize_disease_name disease_name
  match dbGet db n with
  | some info => some info
  | none =>
    match cropNames.findSome? (fun crop => dbGet db (crop ++ "_" ++ n)) with
    | some info => some info
    | none =>
      match db.findSome? (fun p =>
        let clean := cleanDbKey (normalize_disease_name p.1)
        if substrEitherTest n clean ||
            (removeChar '_' n.data == removeChar '_' clean.data)
        then some p.2 else none) with
      | some info => some info
      | none =>
        db.findSome? (fun p =>
          if substrEitherTest n (normalize_disease_name p.2.name)
          then some p.2 else none)

/-! Spec-side resolver, one definition per strategy of the claim. -/

/-- Spec stage 1: exact lookup of the normalized input as a catalog key. -/
def resolveExactSpec (db : Catalog) (n : String) : Option DiseaseInfo :=
  dbGet db n

/-- Spec stage 2: crop-qualified lookup in the fixed crop order. -/
def resolveCropSpec (db : Catalog) (n : String) : Option DiseaseInfo :=
  cropNames.findSome? (fun crop => dbGet db (crop ++ "_" ++ n))

/-- Spec stage 3: substring matching of the normalized input against each
catalog key with any crop lead stripped — equal, substring either way, or
equal after removing all underscores — first catalog entry winning. -/
def resolveKeySubstringSpec (db : Catalog) (n : String) : Option DiseaseInfo :=
  db.findSome? (fun p =>
    let clean := cleanDbKey p.1
    if substrEitherTest n clean ||
        (removeChar '_' n.data == removeChar '_' clean.data)
    then some p.2 else none)

/-- Spec stage 4: the substring test against each record's
human-readable name field. -/
def resolveNameSpec (db : Catalog) (n : String) : Option DiseaseInfo :=
  db.findSome? (fun p =>
    if substrEitherTest n p.2.name then some p.2 else none)

/-- The claim's resolution algorithm: the four strategies in strict
precedence order, first match winning, failure yielding no record. -/
def resolveSpec (db : Catalog) (s : String) : Option DiseaseInfo :=
  let n := normalize_disease_name s
  ((resolveExactSpec db n).orElse (fun _ =>
    (resolveCropSpec db n).orElse (fun _ =>
      (resolveKeySubstringSpec db n).orElse (fun _ =>
        resolveNameSpec db n))))

theorem findSome?_congr {α β : Type} (f g : α → Option β) (l : List α)
    (h : ∀ a ∈ l, f a = g a) : l.findSome? f = l.findSome? g := by
  induction l with
  | nil => rfl
  | cons a t ih =>
    rw [List.findSome?_cons, List.findSome?_cons, h a (List.mem_cons_self a t)]
    cases g a with
    | some b => rfl
    | none => exact ih (fun x hx => h x (List.mem_cons_of_mem a hx))

/-- C1: for every input identifier (and any catalog whose keys and names
are already in normalized form, as the real catalog's are),
`_find_disease_fuzzy` applies the four matching strategies in strict
precedence order with the first match winning, and yields no record when
none match. -/
theorem c1_resolution_precedence (db : Catalog) (s : String)
    (hk : ∀ p ∈ db, normalize_disease_name p.1 = p.1 ∧
      normalize_disease_name p.2.name = p.2.name) :
    find_disease_fuzzy db s = resolveSpec db s := by
  have h3 : (db.findSome? (fun p =>
      if substrEitherTest (normalize_disease_name s)
          (cleanDbKey (normalize_disease_name p.1)) ||
          (removeChar '_' (normalize_disease_name s).data ==
            removeChar '_' (cleanDbKey (normalize_disease_name p.1)).data)
      then some p.2 else none)) =
      resolveKeySubstringSpec db (normalize_disease_name s) := by
    apply findSome?_congr
    intro p hp
    rw [(hk p hp).1]
  have h4 : (db.findSome? (fun p =>
      if substrEitherTest (normalize_disease_name s)
          (normalize_disease_name p.2.name)
      then some p.2 else none)) =
      resolveNameSpec db (normalize_disease_name s) := by
    apply findSome?_congr
    intro p hp
    rw [(hk p hp).2]
  simp only [find_disease_fuzzy, resolveSpec, resolveExactSpec, resolveCropSpec]
  rw [h3, h4]
  cases dbGet db (normalize_disease_name s) with
  | some info => rfl
  | none =>
    simp only [Option.orElse]
    cases cropNames.findSome?
        (fun crop => dbGet db (crop ++ "_" ++ normalize_disease_name s)) with
    | some info => rfl
    | none =>
      simp only [Option.orElse]
      cases resolveKeySubstringSpec db (normalize_disease_name s) with
      | some info => rfl
      | none => rfl

/-! ## The static catalog (`data/disease_database.py`,
`data/disease_database_extended.py`).

Every record's `name` equals its dict key in the source.  Only the key,
name and crop fields are embedded: no verified claim about the static
catalog depends on the treatment lists or descriptive fields, so
`treatments` is left empty here (claims C2–C4 quantify over arbitrary
records instead). -/

def CASHEW_DISEASES : Catalog :=
  [("anthracnose", ⟨"anthracnose", .cashew, []⟩),
   ("gumosis", ⟨"gumosis", .cashew, []⟩),
   ("leaf_miner", ⟨"leaf_miner", .cashew, []⟩),
   ("red_rust", ⟨"red_rust", .cashew, []⟩),
   ("healthy", ⟨"healthy", .cashew, []⟩)]

def CASSAVA_DISEASES : Catalog :=
  [("bacterial_blight", ⟨"bacterial_blight", .cassava, []⟩),
   ("brown_spot", ⟨"brown_spot", .cassava, []⟩),
   ("green_mite", ⟨"green_mite", .cassava, []⟩)]

def CASSAVA_DISEASES_EXTENDED : Catalog :=
  [("mosaic", ⟨"mosaic", .cassava, []⟩),
   ("healthy", ⟨"healthy", .cassava, []⟩)]

def MAIZE_DISEASES : Catalog :=
  [("fall_armyworm", ⟨"fall_armyworm", .maize, []⟩),
   ("grasshopper", ⟨"grasshopper", .maize, []⟩),
   ("leaf_beetle", ⟨"leaf_beetle", .maize, []⟩),
   ("leaf_blight", ⟨"leaf_blight", .maize, []⟩),
   ("leaf_spot", ⟨"leaf_spot", .maize, []⟩),
   ("streak_virus", ⟨"streak_virus", .maize, []⟩),
   ("healthy", ⟨"healthy", .maize, []⟩)]

def TOMATO_DISEASES : Catalog :=
  [("leaf_blight", ⟨"leaf_blight", .tomato, []⟩),
   ("leaf_curl", ⟨"leaf_curl", .tomato, []⟩),
   ("septoria_leaf_spot", ⟨"septoria_leaf_spot", .tomato, []⟩),
   ("verticillium_wilt", ⟨"verticillium_wilt", .tomato, []⟩),
   ("healthy", ⟨"healthy", .tomato, []⟩)]

/-- Python `d[k] = v` on an insertion-ordered dict: replace in place when
the key exists, append otherwise. -/
def dictInsert (d : Catalog) (k : String) (v : DiseaseInfo) : Catalog :=
  if d.any (fun p => p.1 = k)
  then d.map (fun p => if p.1 = k then (k, v) else p)
  else d ++ [(k, v)]

/-- The `(crop_name, database)` list of `combine_disease_databases`. -/
def databases : List (String × Catalog) :=
  [("cashew", CASHEW_DISEASES),
   ("cassava", CASSAVA_DISEASES),
   ("cassava", CASSAVA_DISEASES_EXTENDED),
   ("maize", MAIZE_DISEASES),
   ("tomato", TOMATO_DISEASES)]

/-- `combine_disease_databases` (treatment_service.py lines 22–42):
records whose key already exists in the combined dict are stored under
the crop-qualified key `"{crop}_{name}"` instead. -/
def combine_disease_databases : Catalog :=
  databases.foldl (fun combined pair =>
    pair.2.foldl (fun c e =>
      if c.any (fun p => p.1 = e.1)
      then dictInsert c (pair.1 ++ "_" ++ e.1) e.2
      else dictInsert c e.1 e.2) combined) []

/-- `ALL_DISEASES = combine_disease_databases()`. -/
def ALL_DISEASES : Catalog := combine_disease_databases

example : ALL_DISEASES.length = 22 := by decide

/-- C10: the combined catalog's keys are unique, every record of every
source database survives (under its own key or the crop-qualified one),
and name collisions across crops land under `"{crop}_{name}"`. -/
theorem c10_combine_unique_keys :
    (combine_disease_databases.map Prod.fst).Nodup ∧
    combine_disease_databases.length = 22 ∧
    (databases.all (fun pair => pair.2.all (fun e =>
      decide ((e.1, e.2) ∈ combine_disease_databases ∨
        (pair.1 ++ "_" ++ e.1, e.2) ∈ combine_disease_databases))) = true) ∧
    dbGet combine_disease_databases "leaf_blight" =
      some ⟨"leaf_blight", .maize, []⟩ ∧
    dbGet combine_disease_databases "tomato_leaf_blight" =
      some ⟨"leaf_blight", .tomato, []⟩ ∧
    dbGet combine_disease_databases "cassava_healthy" =
      some ⟨"healthy", .cassava, []⟩ := by
  refine ⟨by decide, by decide, by decide, by decide, by decide, by decide⟩

/-- Witness for C1 at the real catalog and the concrete input
"Leaf Blight". -/
theorem c1_resolution_precedence_witness :
    (∀ p ∈ ALL_DISEASES, normalize_disease_name p.1 = p.1 ∧
      normalize_disease_name p.2.name = p.2.name) ∧
    find_disease_fuzzy ALL_DISEASES "Leaf Blight" =
      resolveSpec ALL_DISEASES "Leaf Blight" :=
  ⟨by decide, c1_resolution_precedence ALL_DISEASES "Leaf Blight" (by decide)⟩

/-! ## Recommendation engine (`TreatmentService.recommend_treatments`,
lines 251–277: the record-level logic after resolution). -/

/-- `t.cost_estimate_ghs or 0`: the cost used for ranking, with an absent
(or zero, which Python's `or` also maps to 0 — same value) cost treated
as 0. -/
def cost0 (t : Treatment) : ℚ :=
  t.cost_estimate_ghs.getD 0

/-- The ranking order of `treatments.sort(key=lambda t:
(-t.effectiveness, t.cost_estimate_ghs or 0))`: effectiveness
descending, then cost ascending. -/
def treatLe (A B : Treatment) : Prop :=
  B.effectiveness < A.effectiveness ∨
    (A.effectiveness = B.effectiveness ∧ cost0 A ≤ cost0 B)

instance : DecidableRel treatLe := fun A B => by
  unfold treatLe
  infer_instance

instance : IsTotal Treatment treatLe := by
  constructor
  intro a b
  unfold treatLe
  rcases lt_trichotomy a.effectiveness b.effectiveness with h | h | h
  · exact Or.inr (Or.inl h)
  · rcases le_total (cost0 a) (cost0 b) with hc | hc
    · exact Or.inl (Or.inr ⟨h, hc⟩)
    · exact Or.inr (Or.inr ⟨h.symm, hc⟩)
  · exact Or.inl (Or.inl h)

instance : IsTrans Treatment treatLe := by
  constructor
  intro a b c hab hbc
  rcases hab with h1 | ⟨h1e, h1c⟩
  · rcases hbc with h2 | ⟨h2e, h2c⟩
    · exact Or.inl (lt_trans h2 h1)
    · exact Or.inl (h2e ▸ h1)
  · rcases hbc with h2 | ⟨h2e, h2c⟩
    · exact Or.inl (by rw [h1e]; exact h2)
    · exact Or.inr ⟨h1e.trans h2e, le_trans h1c h2c⟩

/-- Python's `list.sort` (stable) under the ranking key, embedded as the
stable insertion sort: any two stable sorts of the same total preorder
agree element for element. -/
def sortTreatments (ts : List Treatment) : List Treatment :=
  List.insertionSort treatLe ts

/-- The organic-preference filter of `recommend_treatments` (lines
253–261): with the preference set, restrict to ORGANIC treatments; if
none exist, use the (empty) ORGANIC list concatenated with the
BIOLOGICAL ones. -/
def workingSet (d : DiseaseInfo) (organic_preference : Bool) : List Treatment :=
  if organic_preference then
    let organic := d.treatments.filter (fun t => t.ttype = TreatmentType.organic)
    if organic ≠ [] then organic
    else organic ++ d.treatments.filter (fun t => t.ttype = TreatmentType.biological)
  else d.treatments

/-- The severity-dependent cap of lines 269–274 (the if/elif chain covers
all four enum values). -/
def severityLimit : SeverityLevel → Nat
  | .low => 2
  | .moderate => 3
  | .high => 5
  | .severe => 5

/-- `recommend_treatments` on a resolved record: filter by preference,
stable-sort by (effectiveness desc, cost asc), truncate by severity. -/
def recommend_treatments (d : DiseaseInfo) (severity : SeverityLevel)
    (organic_preference : Bool) : List Treatment :=
  (sortTreatments (workingSet d organic_preference)).take (severityLimit severity)

theorem orderedInsert_filter_pos {α : Type} (r : α → α → Prop) [DecidableRel r]
    (p : α → Bool) (a : α) (l : List α) (ha : p a = true)
    (hcls : ∀ x ∈ l, p x = true → r a x) :
    (l.orderedInsert r a).filter p = a :: l.filter p := by
  induction l with
  | nil => simp [List.orderedInsert, ha]
  | cons b t ih =>
    rw [List.orderedInsert]
    by_cases hr : r a b
    · rw [if_pos hr, List.filter_cons_of_pos ha]
    · rw [if_neg hr]
      have hb : p b = false := by
        by_contra hb
        rw [Bool.not_eq_false] at hb
        exact hr (hcls b (List.mem_cons_self b t) hb)
      rw [List.filter_cons_of_neg (by simp [hb]),
        ih (fun x hx hpx => hcls x (List.mem_cons_of_mem b hx) hpx),
        List.filter_cons_of_neg (by simp [hb])]

theorem orderedInsert_filter_neg {α : Type} (r : α → α → Prop) [DecidableRel r]
    (p : α → Bool) (a : α) (l : List α) (ha : p a = false) :
    (l.orderedInsert r a).filter p = l.filter p := by
  induction l with
  | nil => simp [List.orderedInsert, ha]
  | cons b t ih =>
    rw [List.orderedInsert]
    by_cases hr : r a b
    · rw [if_pos hr, List.filter_cons_of_neg (by simp [ha])]
    · rw [if_neg hr]
      by_cases hpb : p b = true
      · rw [List.filter_cons_of_pos hpb, List.filter_cons_of_pos hpb, ih]
      · rw [List.filter_cons_of_neg (by simpa using hpb),
          List.filter_cons_of_neg (by simpa using hpb), ih]

/-- Stability of the embedded sort: filtering to any class of mutually
tied elements returns them in their original order. -/
theorem insertionSort_filter_stable {α : Type} (r : α → α → Prop) [DecidableRel r]
    (p : α → Bool) (l : List α)
    (hcls : ∀ x y, p x = true → p y = true → r x y) :
    (List.insertionSort r l).filter p = l.filter p := by
  induction l with
  | nil => rfl
  | cons a t ih =>
    rw [List.insertionSort]
    by_cases ha : p a = true
    · rw [orderedInsert_filter_pos r p a _ ha (fun x _ hpx => hcls a x ha hpx),
        ih, List.filter_cons_of_pos ha]
    · have ha' : p a = false := by simpa using ha
      rw [orderedInsert_filter_neg r p a _ ha', ih,
        List.filter_cons_of_neg (by simp [ha'])]

example : recommend_treatments
    ⟨"anthracnose", .cashew,
      [⟨"Copper", .chemical, 85, some 45⟩, ⟨"Mancozeb", .chemical, 90, some 35⟩,
       ⟨"Neem", .organic, 70, some 25⟩]⟩ .moderate false =
    [⟨"Mancozeb", .chemical, 90, some 35⟩, ⟨"Copper", .chemical, 85, some 45⟩,
     ⟨"Neem", .organic, 70, some 25⟩] := by decide

example : recommend_treatments
    ⟨"anthracnose", .cashew,
      [⟨"Copper", .chemical, 85, some 45⟩, ⟨"Mancozeb", .chemical, 90, some 35⟩,
       ⟨"Neem", .organic, 70, some 25⟩]⟩ .moderate true =
    [⟨"Neem", .organic, 70, some 25⟩] := by decide

/-- C2: in every recommendation result, any earlier treatment beats any
later one on effectiveness, or ties on effectiveness with cost no larger
(missing cost compared as 0); the sort is stable — treatments tied on
both keys keep their catalog order — and the result is a truncation of
that stable sort. -/
theorem c2_ranking_invariant (d : DiseaseInfo) (sev : SeverityLevel) (pref : Bool) :
    List.Pairwise treatLe (recommend_treatments d sev pref) ∧
    (∀ e c : ℚ, (sortTreatments (workingSet d pref)).filter
        (fun t => decide (t.effectiveness = e ∧ cost0 t = c)) =
      (workingSet d pref).filter
        (fun t => decide (t.effectiveness = e ∧ cost0 t = c))) ∧
    recommend_treatments d sev pref =
      (sortTreatments (workingSet d pref)).take (severityLimit sev) := by
  refine ⟨?_, ?_, rfl⟩
  · have hs : List.Pairwise treatLe (sortTreatments (workingSet d pref)) :=
      List.sorted_insertionSort treatLe (workingSet d pref)
    exact List.Pairwise.sublist (List.take_sublist _ _) hs
  · intro e c
    apply insertionSort_filter_stable
    intro x y hx hy
    have hx' := of_decide_eq_true hx
    have hy' := of_decide_eq_true hy
    exact Or.inr ⟨hx'.1.trans hy'.1.symm, by rw [hx'.2, hy'.2]⟩

/-- C3: the result length is capped at 2/3/5/5 for LOW/MODERATE/HIGH/
SEVERE, never exceeds the eligible set, and every returned treatment
ranks at least as high as every entry dropped by the truncation (which
happens after sorting). -/
theorem c3_truncation_invariant (d : DiseaseInfo) (sev : SeverityLevel) (pref : Bool) :
    (recommend_treatments d sev pref).length ≤ severityLimit sev ∧
    (recommend_treatments d sev pref).length ≤ (workingSet d pref).length ∧
    (severityLimit .low = 2 ∧ severityLimit .moderate = 3 ∧
      severityLimit .high = 5 ∧ severityLimit .severe = 5) ∧
    ((recommend_treatments d sev pref).all (fun a =>
      ((sortTreatments (workingSet d pref)).drop (severityLimit sev)).all
        (fun b => decide (treatLe a b))) = true) := by
  refine ⟨?_, ?_, ⟨rfl, rfl, rfl, rfl⟩, ?_⟩
  · exact List.length_take_le _ _
  · have hlen : (sortTreatments (workingSet d pref)).length =
        (workingSet d pref).length :=
      (List.perm_insertionSort treatLe (workingSet d pref)).length_eq
    rw [recommend_treatments, List.length_take, hlen]
    exact min_le_right _ _
  · have hs : List.Pairwise treatLe (sortTreatments (workingSet d pref)) :=
      List.sorted_insertionSort treatLe (workingSet d pref)
    rw [← List.take_append_drop (severityLimit sev)
      (sortTreatments (workingSet d pref))] at hs
    have h3 := (List.pairwise_append.mp hs).2.2
    rw [List.all_eq_true]
    intro a ha
    rw [List.all_eq_true]
    intro b hb
    exact decide_eq_true (h3 a ha b hb)

/-- C4: with the organic preference set, the working set is exactly the
ORGANIC treatments when any exist, otherwise the (empty) ORGANIC list
concatenated with the BIOLOGICAL ones; with neither present the result
is the empty list (a normal return, not an error — the function is total
and simply returns `[]`). -/
theorem c4_organic_filter (d : DiseaseInfo) :
    ((d.treatments.filter (fun t => t.ttype = TreatmentType.organic)) ≠ [] →
      workingSet d true =
        d.treatments.filter (fun t => t.ttype = TreatmentType.organic)) ∧
    ((d.treatments.filter (fun t => t.ttype = TreatmentType.organic)) = [] →
      workingSet d true =
        d.treatments.filter (fun t => t.ttype = TreatmentType.organic) ++
          d.treatments.filter (fun t => t.ttype = TreatmentType.biological)) ∧
    ((d.treatments.filter (fun t => t.ttype = TreatmentType.organic)) = [] →
      (d.treatments.filter (fun t => t.ttype = TreatmentType.biological)) = [] →
      ∀ sev : SeverityLevel, recommend_treatments d sev true = []) := by
  refine ⟨?_, ?_, ?_⟩
  · intro h
    simp [workingSet, h]
  · intro h
    simp [workingSet, h]
  · intro h1 h2 sev
    have hw : workingSet d true = [] := by simp [workingSet, h1, h2]
    rw [recommend_treatments, hw]
    simp [sortTreatments, List.insertionSort]

/-- Witness for C4: an organic-only record keeps exactly its organic
treatment, and a chemical-only record yields the empty list under the
organic preference. -/
theorem c4_organic_filter_witness :
    workingSet ⟨"y", .maize, [⟨"o", .organic, 70, none⟩]⟩ true =
      [⟨"o", .organic, 70, none⟩] ∧
    recommend_treatments ⟨"x", .maize, [⟨"t", .chemical, 90, some 10⟩]⟩
      .moderate true = [] := by
  constructor
  · exact ((c4_organic_filter ⟨"y", .maize, [⟨"o", .organic, 70, none⟩]⟩).1
      (by decide)).trans (by decide)
  · exact (c4_organic_filter ⟨"x", .maize, [⟨"t", .chemical, 90, some 10⟩]⟩).2.2
      (by decide) (by decide) SeverityLevel.moderate

/-! ## Two-tier cache (`services/cache.py`, `CacheManager`).

The value type is abstract; the pickle round-trip
(`_serialize_value` / `_deserialize_value`) is modelled as the identity
on stored values.  `redis_enabled` folds the
`self.redis_enabled and self.redis_client` guard; a `redisFail` flag per
call models the external call raising (the `except` branches).  The
in-process `TTLCache` is modelled as an insertion-ordered map — the
claims under verification exclude TTL expiry and eviction.  Python's
`value is not default` identity test is modelled as value equality. -/

structure CacheStats where
  hits : Nat
  misses : Nat
  redis_hits : Nat
  memory_hits : Nat
  errors : Nat
deriving DecidableEq, Repr

structure CacheState (V : Type) where
  redis_enabled : Bool
  redisStore : List (String × V)
  memory : List (String × V)
  stats : CacheStats
deriving DecidableEq, Repr

/-- Lookup in an insertion-ordered map. -/
def assocGet {V : Type} (store : List (String × V)) (k : String) : Option V :=
  (store.find? (fun p => p.1 = k)).map (fun p => p.2)

/-- `d[k] = v`: replace in place when the key exists, append otherwise. -/
def assocSet {V : Type} (store : List (String × V)) (k : String) (v : V) :
    List (String × V) :=
  if store.any (fun p => p.1 = k)
  then store.map (fun p => if p.1 = k then (k, v) else p)
  else store ++ [(k, v)]

/-- `CacheManager._generate_cache_key`: namespace with "crop_api", and
digest over-long keys (the md5 hex digest is abstracted as a function
parameter). -/
def genCacheKey (md5hex : String → String) (key : String) : String :=
  if key.length > 200 then "crop_api:" ++ md5hex key
  else "crop_api:" ++ key

/-- One external-store read; `fail = true` models the call raising. -/
def redisGetOp {V : Type} (fail : Bool) (store : List (String × V)) (k : String) :
    Except Unit (Option V) :=
  if fail then .error () else .ok (assocGet store k)

/-- One external-store `SETEX`; `fail = true` models the call raising. -/
def redisSetOp {V : Type} (fail : Bool) (store : List (String × V)) (k : String)
    (v : V) : Except Unit (List (String × V)) :=
  if fail then .error () else .ok (assocSet store k v)

/-- The Redis branch of `CacheManager.get` (lines 107–119): the
`except` arm counts an error and falls through. -/
def cacheGetRedisStep {V : Type} (redisFail : Bool) (st : CacheState V)
    (ck : String) : Option V × CacheState V :=
  if st.redis_enabled then
    match redisGetOp redisFail st.redisStore ck with
    | .error _ =>
      (none, { st with stats := { st.stats with errors := st.stats.errors + 1 } })
    | .ok (some v) =>
      (some v, { st with stats := { st.stats with
        hits := st.stats.hits + 1, redis_hits := st.stats.redis_hits + 1 } })
    | .ok none => (none, st)
  else (none, st)

/-- The memory branch of `CacheManager.get` (lines 121–132):
`memory_cache.get(ck, default)` then the `value is not default` test. -/
def cacheGetMemoryStep {V : Type} [DecidableEq V] (st : CacheState V)
    (ck : String) (dflt : V) : V × CacheState V :=
  match assocGet st.memory ck with
  | some v =>
    if v ≠ dflt then
      (v, { st with stats := { st.stats with
        hits := st.stats.hits + 1, memory_hits := st.stats.memory_hits + 1 } })
    else (dflt, { st with stats := { st.stats with misses := st.stats.misses + 1 } })
  | none => (dflt, { st with stats := { st.stats with misses := st.stats.misses + 1 } })

/-- `CacheManager.get`. -/
def cacheGet {V : Type} [DecidableEq V] (md5hex : String → String)
    (redisFail : Bool) (st : CacheState V) (key : String) (dflt : V) :
    V × CacheState V :=
  let ck := genCacheKey md5hex key
  match cacheGetRedisStep redisFail st ck with
  | (some v, st1) => (v, st1)
  | (none, st1) => cacheGetMemoryStep st1 ck dflt

/-- The Redis branch of `CacheManager.set` (lines 141–150). -/
def cacheSetRedisStep {V : Type} (redisFail : Bool) (st : CacheState V)
    (ck : String) (v : V) : Bool × CacheState V :=
  if st.redis_enabled then
    match redisSetOp redisFail st.redisStore ck v with
    | .error _ =>
      (false, { st with stats := { st.stats with errors := st.stats.errors + 1 } })
    | .ok ns => (true, { st with redisStore := ns })
  else (false, st)

/-- `CacheManager.set`: the in-process write (lines 152–160) follows the
Redis attempt unconditionally and is modelled as always succeeding, so
the returned success flag is true (the caller-requested TTL is forwarded
to the external `SETEX` only and plays no role in the claims). -/
def cacheSet {V : Type} (md5hex : String → String) (redisFail : Bool)
    (st : CacheState V) (key : String) (v : V) (ttl : Option Nat) :
    Bool × CacheState V :=
  let ck := genCacheKey md5hex key
  let r := cacheSetRedisStep redisFail st ck v
  (true, { r.2 with memory := assocSet r.2.memory ck v })

theorem assocGet_map_update {V : Type} (store : List (String × V)) (k : String)
    (v : V) (h : store.any (fun p => p.1 = k) = true) :
    assocGet (store.map (fun p => if p.1 = k then (k, v) else p)) k = some v := by
  induction store with
  | nil => simp at h
  | cons a t ih =>
    rw [List.map_cons]
    by_cases hak : a.1 = k
    · rw [if_pos hak]
      simp [assocGet]
    · rw [if_neg hak]
      rw [List.any_cons] at h
      have ht : t.any (fun p => p.1 = k) = true := by
        simpa [hak] using h
      have h2 := ih ht
      rw [assocGet, List.find?_cons_of_neg _ (by simpa using hak)]
      rw [assocGet] at h2
      exact h2

theorem assocGet_append_new {V : Type} (store : List (String × V)) (k : String)
    (v : V) (h : store.any (fun p => p.1 = k) = false) :
    assocGet (store ++ [(k, v)]) k = some v := by
  induction store with
  | nil => simp [assocGet]
  | cons a t ih =>
    rw [List.any_cons] at h
    simp only [Bool.or_eq_false_iff] at h
    have hak : ¬(a.1 = k) := by simpa using h.1
    rw [List.cons_append, assocGet, List.find?_cons_of_neg _ (by simpa using hak)]
    have h2 := ih h.2
    rw [assocGet] at h2
    exact h2

theorem assocGet_assocSet_self {V : Type} (store : List (String × V)) (k : String)
    (v : V) : assocGet (assocSet store k v) k = some v := by
  rw [assocSet]
  by_cases h : store.any (fun p => p.1 = k) = true
  · rw [if_pos h]
    exact assocGet_map_update store k v h
  · rw [if_neg h]
    exact assocGet_append_new store k v ((Bool.not_eq_true _) ▸ h)

/-- C7: immediately after a `set` during which the external tier did not
fail, `get` returns the value just stored (no expiry or eviction
in between), whatever the prior contents of either tier. -/
theorem c7_cache_roundtrip {V : Type} [DecidableEq V] (md5hex : String → String)
    (st : CacheState V) (key : String) (v : V) (ttl : Option Nat) (dflt : V)
    (failSet failGet : Bool) (hs : failSet = false) (hg : failGet = false) :
    (cacheGet md5hex failGet (cacheSet md5hex failSet st key v ttl).2 key dflt).1
      = v := by
  subst hs hg
  by_cases he : st.redis_enabled = true
  · have hset : cacheSetRedisStep false st (genCacheKey md5hex key) v =
        (true,
          { st with redisStore := assocSet st.redisStore (genCacheKey md5hex key) v }) := by
      rw [cacheSetRedisStep, if_pos he]
      rfl
    rw [cacheSet]
    rw [hset]
    rw [cacheGet, cacheGetRedisStep, if_pos he]
    rw [redisGetOp, if_neg (by simp)]
    rw [assocGet_assocSet_self]
  · have hset : cacheSetRedisStep false st (genCacheKey md5hex key) v =
        (false, st) := by
      rw [cacheSetRedisStep, if_neg he]
    rw [cacheSet]
    rw [hset]
    rw [cacheGet, cacheGetRedisStep, if_neg he]
    simp only [cacheGetMemoryStep, assocGet_assocSet_self]
    by_cases hvd : v = dflt
    · simp [hvd]
    · simp [hvd]

/-- Witness for C7: fresh Nat-valued cache, external tier enabled,
no failures. -/
theorem c7_cache_roundtrip_witness :
    ((false : Bool) = false) ∧
    (cacheGet id false
      (cacheSet id false
        (⟨true, [], [], ⟨0, 0, 0, 0, 0⟩⟩ : CacheState Nat) "k" 7 (some 60)).2
      "k" 0).1 = 7 :=
  ⟨rfl, c7_cache_roundtrip id ⟨true, [], [], ⟨0, 0, 0, 0, 0⟩⟩ "k" 7 (some 60) 0
    false false rfl rfl⟩

theorem cacheGetMemoryStep_errors {V : Type} [DecidableEq V] (st : CacheState V)
    (ck : String) (dflt : V) :
    (cacheGetMemoryStep st ck dflt).2.stats.errors = st.stats.errors := by
  rw [cacheGetMemoryStep]
  cases assocGet st.memory ck with
  | none => rfl
  | some v =>
    dsimp only
    split
    · rfl
    · rfl

theorem cacheGetMemoryStep_fst {V : Type} [DecidableEq V] (st1 st2 : CacheState V)
    (ck : String) (dflt : V) (h : st1.memory = st2.memory) :
    (cacheGetMemoryStep st1 ck dflt).1 = (cacheGetMemoryStep st2 ck dflt).1 := by
  rw [cacheGetMemoryStep, cacheGetMemoryStep, h]
  cases assocGet st2.memory ck with
  | none => rfl
  | some v =>
    dsimp only
    split
    · rfl
    · rfl

/-- C8: a failing external tier during `get`/`set` is absorbed — the
error counter is incremented, `get` returns exactly what it would with
the external tier disabled (in-process tier only), and `set` still
reports success and performs the same in-process write. -/
theorem c8_redis_failure_absorbed {V : Type} [DecidableEq V]
    (md5hex : String → String) (st : CacheState V) (key : String) (v dflt : V)
    (ttl : Option Nat) (he : st.redis_enabled = true) :
    (cacheGet md5hex true st key dflt).2.stats.errors = st.stats.errors + 1 ∧
    (cacheGet md5hex true st key dflt).1 =
      (cacheGet md5hex false { st with redis_enabled := false } key dflt).1 ∧
    (cacheSet md5hex true st key v ttl).1 = true ∧
    (cacheSet md5hex true st key v ttl).2.stats.errors = st.stats.errors + 1 ∧
    (cacheSet md5hex true st key v ttl).2.memory =
      (cacheSet md5hex false { st with redis_enabled := false } key v ttl).2.memory := by
  have hgfail : cacheGetRedisStep true st (genCacheKey md5hex key) =
      (none, { st with stats := { st.stats with errors := st.stats.errors + 1 } }) := by
    rw [cacheGetRedisStep, if_pos he]
    rfl
  have hgoff : cacheGetRedisStep false { st with redis_enabled := false }
      (genCacheKey md5hex key) = (none, { st with redis_enabled := false }) := by
    rw [cacheGetRedisStep, if_neg (by simp)]
  have hsfail : cacheSetRedisStep true st (genCacheKey md5hex key) v =
      (false, { st with stats := { st.stats with errors := st.stats.errors + 1 } }) := by
    rw [cacheSetRedisStep, if_pos he]
    rfl
  have hsoff : cacheSetRedisStep false { st with redis_enabled := false }
      (genCacheKey md5hex key) v = (false, { st with redis_enabled := false }) := by
    rw [cacheSetRedisStep, if_neg (by simp)]
  refine ⟨?_, ?_, ?_, ?_, ?_⟩
  · rw [cacheGet, hgfail]
    rw [cacheGetMemoryStep_errors]
  · rw [cacheGet, hgfail, cacheGet, hgoff]
    exact cacheGetMemoryStep_fst _ _ _ _ rfl
  · rw [cacheSet]
  · rw [cacheSet, hsfail]
  · rw [cacheSet, hsfail, cacheSet, hsoff]

/-- Witness for C8: fresh Nat-valued cache with the external tier
enabled and failing. -/
theorem c8_redis_failure_absorbed_witness :
    ((⟨true, [], [("crop_api:k", 5)], ⟨0, 0, 0, 0, 0⟩⟩ :
        CacheState Nat).redis_enabled = true) ∧
    (cacheGet id true
      (⟨true, [], [("crop_api:k", 5)], ⟨0, 0, 0, 0, 0⟩⟩ : CacheState Nat)
      "k" 0).2.stats.errors = 1 ∧
    (cacheGet id true
      (⟨true, [], [("crop_api:k", 5)], ⟨0, 0, 0, 0, 0⟩⟩ : CacheState Nat)
      "k" 0).1 = 5 := by
  have h := c8_redis_failure_absorbed id
    (⟨true, [], [("crop_api:k", 5)], ⟨0, 0, 0, 0, 0⟩⟩ : CacheState Nat)
    "k" 5 0 none rfl
  exact ⟨rfl, h.1, by rw [h.2.1]; decide⟩

/-! ## Suggestion scoring (`TreatmentService.get_disease_suggestions`,
lines 134–178). -/

/-- Lexicographic comparison of character lists by code point — the
order Python's `sorted` uses on strings. -/
def listLexLe : List Char → List Char → Bool
  | [], _ => true
  | _ :: _, [] => false
  | a :: as, b :: bs => if a = b then listLexLe as bs else decide (a < b)

theorem listLexLe_total : ∀ (a b : List Char),
    listLexLe a b = true ∨ listLexLe b a = true := by
  intro a
  induction a with
  | nil =>
    intro b
    exact Or.inl rfl
  | cons x xs ih =>
    intro b
    cases b with
    | nil => exact Or.inr rfl
    | cons y ys =>
      by_cases hxy : x = y
      · subst hxy
        rw [listLexLe, if_pos rfl, listLexLe, if_pos rfl]
        exact ih ys
      · rcases lt_trichotomy x y with h | h | h
        · left
          rw [listLexLe, if_neg hxy]
          simpa using h
        · exact absurd h hxy
        · right
          rw [listLexLe, if_neg (fun he => hxy he.symm)]
          simpa using h

theorem listLexLe_trans : ∀ (a b c : List Char), listLexLe a b = true →
    listLexLe b c = true → listLexLe a c = true := by
  intro a
  induction a with
  | nil =>
    intro b c _ _
    rfl
  | cons x xs ih =>
    intro b c hab hbc
    cases b with
    | nil => simp [listLexLe] at hab
    | cons y ys =>
      cases c with
      | nil => simp [listLexLe] at hbc
      | cons z zs =>
        rw [listLexLe] at hab hbc ⊢
        by_cases hxy : x = y
        · subst hxy
          rw [if_pos rfl] at hab
          by_cases hyz : x = z
          · subst hyz
            rw [if_pos rfl] at hbc ⊢
            exact ih ys zs hab hbc
          · rw [if_neg hyz] at hbc ⊢
            exact hbc
        · rw [if_neg hxy] at hab
          have hlt1 : x < y := by simpa using hab
          by_cases hyz : y = z
          · subst hyz
            rw [if_neg hxy]
            simpa using hlt1
          · rw [if_neg hyz] at hbc
            have hlt2 : y < z := by simpa using hbc
            have hxz : x < z := lt_trans hlt1 hlt2
            rw [if_neg (ne_of_lt hxz)]
            simpa using hxz

theorem listLexLe_antisymm : ∀ (a b : List Char), listLexLe a b = true →
    listLexLe b a = true → a = b := by
  intro a
  induction a with
  | nil =>
    intro b hab hba
    cases b with
    | nil => rfl
    | cons y ys => simp [listLexLe] at hba
  | cons x xs ih =>
    intro b hab hba
    cases b with
    | nil => simp [listLexLe] at hab
    | cons y ys =>
      rw [listLexLe] at hab hba
      by_cases hxy : x = y
      · subst hxy
        rw [if_pos rfl] at hab hba
        rw [ih ys hab hba]
      · rw [if_neg hxy] at hab
        rw [if_neg (fun he => hxy he.symm)] at hba
        have h1 : x < y := by simpa using hab
        have h2 : y < x := by simpa using hba
        exact absurd h2 (lt_asymm h1)

/-- Python string `<=` (code-point lexicographic). -/
def pyStrLe (a b : String) : Prop := listLexLe a.data b.data = true

instance : DecidableRel pyStrLe := fun a b => by
  unfold pyStrLe
  infer_instance

instance : IsTotal String pyStrLe :=
  ⟨fun a b => listLexLe_total a.data b.data⟩

instance : IsTrans String pyStrLe :=
  ⟨fun a b c => listLexLe_trans a.data b.data c.data⟩

instance : IsAntisymm String pyStrLe := by
  constructor
  intro a b hab hba
  cases a with
  | mk da =>
    cases b with
    | mk db =>
      exact congrArg String.mk (listLexLe_antisymm da db hab hba)

/-- Python `sorted` on strings, embedded as the insertion sort under the
code-point order. -/
def sortStrings (l : List String) : List String :=
  List.insertionSort pyStrLe l

/-- Python `s.split("_")` (accumulator holds the current fragment,
reversed). -/
def splitUnderscoreAux : List Char → List Char → List (List Char)
  | [], acc => [acc.reverse]
  | c :: rest, acc =>
    if c = '_' then acc.reverse :: splitUnderscoreAux rest []
    else splitUnderscoreAux rest (c :: acc)

/-- Python `normalized_input.split("_")`. -/
def pySplitUnderscore (s : String) : List String :=
  (splitUnderscoreAux s.data []).map (fun l => ⟨l⟩)

example : pySplitUnderscore "early_leaf_spot" = ["early", "leaf", "spot"] := by decide

/-- `len(set(a) & set(b))`: distinct characters of `a` occurring in `b`. -/
def commonCharCount (a b : String) : Nat :=
  ((a.data.dedup).filter (fun c => decide (c ∈ b.data))).length

/-- The scoring of `get_disease_suggestions` (lines 152–169), applied to
the normalized input and a normalized candidate name. -/
def suggestionScore (ni nd : String) : Nat :=
  if ni = nd then 100
  else if strIn ni nd || strIn nd ni then 80
  else if (pySplitUnderscore ni).any (fun w => strIn w nd) then 60
  else if nd.length ≤ ni.length + 3 ∧ ni.length ≤ nd.length + 3 then
    if min 3 (ni.length / 2) ≤ commonCharCount ni nd then 40 else 0
  else 0

/-- The order of `scored_suggestions.sort(key=lambda x: x[1],
reverse=True)`: score descending (the stable sort keeps ties in their
pre-sort order). -/
def scoreGe (a b : String × Nat) : Prop := b.2 ≤ a.2

instance : DecidableRel scoreGe := fun a b => by
  unfold scoreGe
  infer_instance

instance : IsTotal (String × Nat) scoreGe := by
  constructor
  intro a b
  unfold scoreGe
  exact le_total b.2 a.2

instance : IsTrans (String × Nat) scoreGe := by
  constructor
  intro a b c hab hbc
  unfold scoreGe at hab hbc ⊢
  exact le_trans hbc hab

/-- One iteration of the scoring loop: keep `(disease, score)` when the
score is positive. -/
def scoredEntry (ni d : String) : Option (String × Nat) :=
  let sc := suggestionScore ni (normalize_disease_name d)
  if sc > 0 then some (d, sc) else none

/-- The scoring loop of `get_disease_suggestions`: names are
deduplicated and sorted alphabetically (`sorted(list(set(...)))`), each
is scored against the input, zero scores are dropped. -/
def scoredSuggestions (db : Catalog) (disease_name : String) :
    List (String × Nat) :=
  (sortStrings (db.map (fun p => p.2.name)).dedup).filterMap
    (scoredEntry (normalize_disease_name disease_name))

/-- `TreatmentService.get_disease_suggestions`: stable-sort the scored
candidates by score descending, truncate, return the names. -/
def getDiseaseSuggestions (db : Catalog) (disease_name : String)
    (max_suggestions : Nat) : List String :=
  ((List.insertionSort scoreGe (scoredSuggestions db disease_name)).take
    max_suggestions).map Prod.fst

/-- Distinct elements in order of first appearance (helper: `seen`
collects the names already emitted). -/
def dedupFirstAux (seen : List String) : List String → List String
  | [] => []
  | a :: t =>
    if a ∈ seen then dedupFirstAux seen t
    else a :: dedupFirstAux (a :: seen) t

/-- Distinct elements in order of first appearance. -/
def dedupFirst (l : List String) : List String :=
  dedupFirstAux [] l

/-- The C9 claim's reading: candidates taken in CATALOG ITERATION order
(distinct names in order of first appearance, no alphabetical sort),
scored, stably sorted by score descending, truncated. -/
def getDiseaseSuggestionsClaimC9 (db : Catalog) (disease_name : String)
    (max_suggestions : Nat) : List String :=
  ((List.insertionSort scoreGe
    ((dedupFirst (db.map (fun p => p.2.name))).filterMap
      (scoredEntry (normalize_disease_name disease_name)))).take
        max_suggestions).map Prod.fst

/-- Strict name order on scored pairs (names strictly ascending). -/
def nameLt (a b : String × Nat) : Prop := pyStrLe a.1 b.1 ∧ a.1 ≠ b.1

/-- Score descending with the alphabetical name order as tie-break —
the order the stable score sort realizes on an alphabetically sorted
input. -/
def scoreNameLe (a b : String × Nat) : Prop :=
  b.2 < a.2 ∨ (a.2 = b.2 ∧ pyStrLe a.1 b.1)

instance : DecidableRel scoreNameLe := fun a b => by
  unfold scoreNameLe
  infer_instance

instance : IsTotal (String × Nat) scoreNameLe := by
  constructor
  intro a b
  unfold scoreNameLe
  rcases lt_trichotomy a.2 b.2 with h | h | h
  · exact Or.inr (Or.inl h)
  · rcases listLexLe_total a.1.data b.1.data with hl | hl
    · exact Or.inl (Or.inr ⟨h, hl⟩)
    · exact Or.inr (Or.inr ⟨h.symm, hl⟩)
  · exact Or.inl (Or.inl h)

instance : IsTrans (String × Nat) scoreNameLe := by
  constructor
  intro a b c hab hbc
  unfold scoreNameLe at hab hbc ⊢
  rcases hab with h1 | ⟨h1e, h1n⟩
  · rcases hbc with h2 | ⟨h2e, h2n⟩
    · exact Or.inl (lt_trans h2 h1)
    · exact Or.inl (h2e ▸ h1)
  · rcases hbc with h2 | ⟨h2e, h2n⟩
    · exact Or.inl (by rw [h1e]; exact h2)
    · exact Or.inr ⟨h1e.trans h2e, listLexLe_trans _ _ _ h1n h2n⟩

instance : IsAntisymm (String × Nat) scoreNameLe := by
  constructor
  intro a b hab hba
  unfold scoreNameLe at hab hba
  rcases hab with h1 | ⟨h1e, h1n⟩
  · rcases hba with h2 | ⟨h2e, h2n⟩
    · exact absurd h2 (lt_asymm h1)
    · exact absurd h1 (by rw [h2e]; exact lt_irrefl _)
  · rcases hba with h2 | ⟨h2e, h2n⟩
    · exact absurd h2 (by rw [h1e]; exact lt_irrefl _)
    · unfold pyStrLe at h1n h2n
      have hd : a.1.data = b.1.data := listLexLe_antisymm _ _ h1n h2n
      have hn : a.1 = b.1 := congrArg String.mk hd
      exact Prod.ext hn h1e

theorem scoredEntry_name {ni d : String} {x : String × Nat}
    (hx : x ∈ scoredEntry ni d) : x.1 = d := by
  rw [scoredEntry] at hx
  by_cases h : suggestionScore ni (normalize_disease_name d) > 0
  · simp only [if_pos h, Option.mem_def, Option.some.injEq] at hx
    rw [← hx]
  · simp only [if_neg h, Option.mem_def] at hx
    cases hx

theorem orderedInsert_scoreGe_sorted (a : String × Nat)
    (s : List (String × Nat)) (hs : s.Pairwise scoreNameLe)
    (ha : ∀ x ∈ s, nameLt a x) :
    (s.orderedInsert scoreGe a).Pairwise scoreNameLe := by
  induction s with
  | nil => simp [List.orderedInsert]
  | cons b t ih =>
    rw [List.orderedInsert]
    by_cases hr : scoreGe a b
    · rw [if_pos hr]
      refine List.Pairwise.cons ?_ hs
      intro x hx
      have hx2 : x.2 ≤ b.2 := by
        rcases List.mem_cons.mp hx with rfl | hxt
        · exact le_refl _
        · rcases (List.pairwise_cons.mp hs).1 x hxt with h | ⟨heq, _⟩
          · exact le_of_lt h
          · exact le_of_eq heq.symm
      unfold scoreGe at hr
      have hxa : x.2 ≤ a.2 := le_trans hx2 hr
      unfold scoreNameLe
      rcases lt_or_eq_of_le hxa with h | h
      · exact Or.inl h
      · exact Or.inr ⟨h.symm, (ha x hx).1⟩
    · rw [if_neg hr]
      have hs' := List.pairwise_cons.mp hs
      refine List.Pairwise.cons ?_
        (ih hs'.2 (fun x hx => ha x (List.mem_cons_of_mem b hx)))
      intro y hy
      rcases (List.mem_orderedInsert scoreGe).mp hy with hya | hyt
      · unfold scoreNameLe
        rw [hya]
        refine Or.inl ?_
        unfold scoreGe at hr
        omega
      · exact hs'.1 y hyt

theorem insertionSort_scoreGe_sorted_nameLt (l : List (String × Nat))
    (hl : l.Pairwise nameLt) :
    (List.insertionSort scoreGe l).Pairwise scoreNameLe := by
  induction l with
  | nil => simp [List.insertionSort]
  | cons a t ih =>
    rw [List.insertionSort]
    have ht := List.pairwise_cons.mp hl
    apply orderedInsert_scoreGe_sorted a _ (ih ht.2)
    intro x hx
    exact ht.1 x ((List.perm_insertionSort scoreGe t).mem_iff.mp hx)

/-- A stable sort by score descending, applied to a list whose names are
strictly ascending, coincides with the sort by (score descending, name
ascending). -/
theorem insertionSort_scoreGe_eq_scoreNameLe (l : List (String × Nat))
    (hl : l.Pairwise nameLt) :
    List.insertionSort scoreGe l = List.insertionSort scoreNameLe l := by
  exact List.eq_of_perm_of_sorted
    ((List.perm_insertionSort scoreGe l).trans
      (List.perm_insertionSort scoreNameLe l).symm)
    (insertionSort_scoreGe_sorted_nameLt l hl)
    (List.sorted_insertionSort scoreNameLe l)

theorem scoredSuggestions_pairwise_nameLt (db : Catalog) (s : String) :
    (scoredSuggestions db s).Pairwise nameLt := by
  rw [scoredSuggestions]
  apply List.Pairwise.filterMap
    (R := fun a b : String => pyStrLe a b ∧ a ≠ b)
  · intro a b hab x hx y hy
    have hxa := scoredEntry_name hx
    have hyb := scoredEntry_name hy
    unfold nameLt
    rw [hxa, hyb]
    exact hab
  · have h1 : (sortStrings ((db.map (fun p => p.2.name)).dedup)).Pairwise pyStrLe :=
      List.sorted_insertionSort pyStrLe _
    have h2 : (sortStrings ((db.map (fun p => p.2.name)).dedup)).Nodup :=
      ((List.perm_insertionSort pyStrLe _).symm).nodup
        (List.nodup_dedup _)
    exact h1.and h2

/-- C9 counterexample: the input "leaf virus" is genuinely unresolved —
`_find_disease_fuzzy` returns no record for it on the real catalog —
and on it seven names tie at score 60 (the token "leaf" or "virus"
occurs in each); the code breaks the tie alphabetically (the candidate
list is `sorted(list(set(...)))`) while the claim's
catalog-iteration-order tie-break yields a different top five. -/
theorem c9_counterexample :
    find_disease_fuzzy ALL_DISEASES "leaf virus" = none ∧
    getDiseaseSuggestions ALL_DISEASES "leaf virus" 5 =
      ["leaf_beetle", "leaf_blight", "leaf_curl", "leaf_miner", "leaf_spot"] ∧
    getDiseaseSuggestionsClaimC9 ALL_DISEASES "leaf virus" 5 =
      ["leaf_miner", "leaf_beetle", "leaf_blight", "leaf_spot", "streak_virus"] ∧
    getDiseaseSuggestions ALL_DISEASES "leaf virus" 5 ≠
      getDiseaseSuggestionsClaimC9 ALL_DISEASES "leaf virus" 5 := by
  refine ⟨by decide, by decide, by decide, by decide⟩

/-- C9 (amended): `get_disease_suggestions` scores every distinct
disease name with the 100/80/60/40 scheme, drops zero scores, and
returns the top `max_suggestions` names by descending score with ties
broken by the alphabetical (code-point) order of the names: the result
is exactly the truncation of the scored candidates sorted by
(score descending, name ascending). -/
theorem c9_suggestions_amended (db : Catalog) (s : String) (N : Nat) :
    getDiseaseSuggestions db s N =
      ((List.insertionSort scoreNameLe (scoredSuggestions db s)).take N).map
        Prod.fst := by
  rw [getDiseaseSuggestions,
    insertionSort_scoreGe_eq_scoreNameLe _ (scoredSuggestions_pairwise_nameLt db s)]
